import Mathlib

/-!
Shallow embedding of the temporal/spatial analysis engine of the `djs`
repository (files `animation_python/enhanced_processing.py` and
`animation/processing.py`), together with theorems settling the frozen
claims about it.  Numpy float arrays are modelled as `List ℝ`, float
scalars as `ℝ`; boolean-mask indexing is modelled by `List.filter` over
zipped lists; `np.argmin`-style selection by a left fold keeping the
first minimiser.
-/

open Real

namespace DJS

/-- Conversion from degrees to radians, `np.radians` / `math.radians`. -/
noncomputable def radiansOf (d : ℝ) : ℝ := d * Real.pi / 180

/-- Conversion from radians to degrees, `np.degrees` / `math.degrees`. -/
noncomputable def degreesOf (r : ℝ) : ℝ := r * 180 / Real.pi

/-- The normalisation `if deg < 0: deg += 360` applied after `atan2` in
`circular_mean`, `analyze_wind_pollution_relationship` and
`calculate_pollution_gradient`. -/
noncomputable def norm360 (d : ℝ) : ℝ := if d < 0 then d + 360 else d

/-- The two-argument arctangent `math.atan2 y x` / `np.arctan2`, modelled as the
complex argument of `x + y·i`; its range is `(-π, π]` as in Python. -/
noncomputable def atan2 (y x : ℝ) : ℝ := Complex.arg ⟨x, y⟩

/-- `np.clip x lo hi` (maximum with `lo`, then minimum with `hi`). -/
noncomputable def np_clip (x lo hi : ℝ) : ℝ := min (max x lo) hi

/-- Minimum of a list of reals, `arr.min()`; `0` on the empty list (numpy
raises there, callers in scope guarantee non-emptiness). -/
noncomputable def listMin : List ℝ → ℝ
  | [] => 0
  | x :: xs => xs.foldl min x

/-- Maximum of a list of reals, `arr.max()`. -/
noncomputable def listMax : List ℝ → ℝ
  | [] => 0
  | x :: xs => xs.foldl max x

/-- First element minimising `f`, as `np.argmin` selects the first index of
the minimum; total via a head default on the empty list. -/
noncomputable def minimizeBy {α : Type} (f : α → ℝ) : α → List α → α
  | a, [] => a
  | a, x :: xs => minimizeBy f (if f x < f a then x else a) xs

/-- The Gaussian weight `exp(-0.5 * ((t - ti) / sigma_seconds)^2)` computed in
`gaussian_kernel_smooth` and `smooth_wind_direction` (the code squares the
absolute difference `time_diffs = np.abs(times - t)`). -/
noncomputable def gweight (sigmaSeconds t ti : ℝ) : ℝ :=
  Real.exp (-(0.5) * (|ti - t| / sigmaSeconds) ^ 2)

/-- One output point of `gaussian_kernel_smooth` (the body of its loop over
`target_times`): Gaussian weights, the `time_diffs < 3*sigma_seconds` mask,
the masked `np.average`, and the `np.argmin` nearest-value fallback. -/
noncomputable def gaussian_kernel_smooth_at (times values : List ℝ)
    (sigma_minutes t : ℝ) : ℝ :=
  let sigma_seconds := sigma_minutes * 60
  let pairs := times.zip values
  let masked := pairs.filter fun p => |p.1 - t| < 3 * sigma_seconds
  if masked = [] then
    match pairs with
    | [] => 0
    | p :: ps => (minimizeBy (fun q => |q.1 - t|) p ps).2
  else
    ((masked.map fun p => gweight sigma_seconds t p.1 * p.2).sum) /
      ((masked.map fun p => gweight sigma_seconds t p.1).sum)

/-- `gaussian_kernel_smooth`: one smoothed value per target time. -/
noncomputable def gaussian_kernel_smooth (times values target_times : List ℝ)
    (sigma_minutes : ℝ) : List ℝ :=
  target_times.map (gaussian_kernel_smooth_at times values sigma_minutes)

/-- Spec-side numerator: every point contributes `w_i * v_i` when it passes the
`|t - times_i| < 3*sigma_seconds` cutoff and `0` otherwise. -/
noncomputable def specMaskedNum (times values : List ℝ) (sigmaSeconds t : ℝ) : ℝ :=
  ((times.zip values).map fun p =>
    if |t - p.1| < 3 * sigmaSeconds then gweight sigmaSeconds t p.1 * p.2 else 0).sum

/-- Spec-side denominator: each point contributes its weight when inside the
cutoff and `0` otherwise. -/
noncomputable def specMaskedDen (times values : List ℝ) (sigmaSeconds t : ℝ) : ℝ :=
  ((times.zip values).map fun p =>
    if |t - p.1| < 3 * sigmaSeconds then gweight sigmaSeconds t p.1 else 0).sum

/-- Some observation time survives the `3*sigma` cutoff around `t`. -/
def HasMaskPoint (times : List ℝ) (sigmaSeconds t : ℝ) : Prop :=
  ∃ ti ∈ times, |t - ti| < 3 * sigmaSeconds

/-- `circular_mean(directions, weights)` from `animation/processing.py`:
`degrees(atan2(sum w*sin(radians d), sum w*cos(radians d)))` brought into
`[0, 360)`; `0` for an empty direction list.  The in-repo caller
(`smooth_wind_direction`) always passes explicit weights, so the
`weights=None` default is not modelled. -/
noncomputable def circular_mean (directions weights : List ℝ) : ℝ :=
  if directions = [] then 0
  else
    norm360 (degreesOf (atan2
      (((directions.zip weights).map fun p => p.2 * Real.sin (radiansOf p.1)).sum)
      (((directions.zip weights).map fun p => p.2 * Real.cos (radiansOf p.1)).sum)))

/-- One output point of `smooth_wind_direction`: the same Gaussian weights and
`3*sigma` mask as `gaussian_kernel_smooth`, with `circular_mean` over the
masked directions and weights, and the same nearest-value fallback. -/
noncomputable def smooth_wind_direction_at (times directions : List ℝ)
    (sigma_minutes t : ℝ) : ℝ :=
  let sigma_seconds := sigma_minutes * 60
  let pairs := times.zip directions
  let masked := pairs.filter fun p => |p.1 - t| < 3 * sigma_seconds
  if masked = [] then
    match pairs with
    | [] => 0
    | p :: ps => (minimizeBy (fun q => |q.1 - t|) p ps).2
  else
    circular_mean (masked.map Prod.snd)
      (masked.map fun p => gweight sigma_seconds t p.1)

/-- `smooth_wind_direction`: one smoothed direction per target time. -/
noncomputable def smooth_wind_direction (times directions target_times : List ℝ)
    (sigma_minutes : ℝ) : List ℝ :=
  target_times.map (smooth_wind_direction_at times directions sigma_minutes)

/-- `analyze_wind_pollution_relationship(wind_u, wind_v, gradient_direction)`
from `enhanced_processing.py`: `(alignment, transport_indicator)`. -/
noncomputable def analyze_wind_pollution_relationship
    (wind_u wind_v gradient_direction : ℝ) : ℝ × String :=
  if |wind_u| < 0.01 ∧ |wind_v| < 0.01 then (0, "calm")
  else
    let wind_dir_deg := norm360 (degreesOf (atan2 wind_u wind_v))
    let alignment := Real.cos (radiansOf (gradient_direction - wind_dir_deg))
    if alignment > 0.5 then (alignment, "accumulating")
    else if alignment < -0.5 then (alignment, "dispersing")
    else (alignment, "mixing")

/-- The projection step of `determine_upwind_sensor`: each sensor position
relative to the centroid, projected onto the unit wind vector
`(u, v) / sqrt(u^2 + v^2)`. -/
noncomputable def upwind_projections (sensor_lons sensor_lats : List ℝ)
    (wind_u wind_v : ℝ) : List ℝ :=
  (sensor_lons.zip sensor_lats).map fun p =>
    (p.1 - sensor_lons.sum / sensor_lons.length) *
        (wind_u / Real.sqrt (wind_u ^ 2 + wind_v ^ 2)) +
      (p.2 - sensor_lats.sum / sensor_lats.length) *
        (wind_v / Real.sqrt (wind_u ^ 2 + wind_v ^ 2))

/-- `determine_upwind_sensor(sensor_lons, sensor_lats, wind_u, wind_v)` from
`enhanced_processing.py`: upwindness scores, zero for near-zero wind or
near-zero projection spread, otherwise the negated projections rescaled by
`max(|projections.max()|, |projections.min()|)`. -/
noncomputable def determine_upwind_sensor (sensor_lons sensor_lats : List ℝ)
    (wind_u wind_v : ℝ) : List ℝ :=
  if |wind_u| < 0.01 ∧ |wind_v| < 0.01 then
    List.replicate sensor_lons.length 0
  else
    let projections := upwind_projections sensor_lons sensor_lats wind_u wind_v
    if listMax projections - listMin projections > 1e-10 then
      projections.map fun p =>
        -p / max |listMax projections| |listMin projections|
    else
      List.replicate sensor_lons.length 0

/-- Slope of the degree-1 least-squares fit of `ys` against
`x = 0, 1, ..., len-1` — the contract of `np.polyfit(x, y, 1)[0]` as called
by `calculate_trend`, in the standard closed form
`(n*Sxy - Sx*Sy) / (n*Sxx - Sx^2)`. -/
noncomputable def polyfit_slope (ys : List ℝ) : ℝ :=
  let n : ℝ := ys.length
  let xs : List ℝ := (List.range ys.length).map fun i => (i : ℝ)
  let Sx := xs.sum
  let Sy := ys.sum
  let Sxy := ((xs.zip ys).map fun p => p.1 * p.2).sum
  let Sxx := (xs.map fun x => x ^ 2).sum
  (n * Sxy - Sx * Sy) / (n * Sxx - Sx ^ 2)

/-- `calculate_trend(values, window=5)` from `enhanced_processing.py`: zeros
for fewer than 3 values; otherwise, per index, the `np.polyfit` slope over
the window `values[max(0, i - window//2) : min(len, i + window//2 + 1)]`
when it has at least 2 points, else 0. -/
noncomputable def calculate_trend (values : List ℝ) (window : ℕ) : List ℝ :=
  if values.length < 3 then List.replicate values.length 0
  else
    (List.range values.length).map fun i =>
      let start := i - window / 2
      let stop := min values.length (i + window / 2 + 1)
      if 2 ≤ stop - start then
        polyfit_slope ((values.drop start).take (stop - start))
      else 0

/-- The TrendEstimator exactly as the spec sentence states it: for every
index `i` take the points with index in `[i - w/2, i + w/2]` clipped to the
array bounds, and return the least-squares slope whenever at least two points
are available, `0` otherwise — with no further precondition on the series
length. -/
noncomputable def spec_calculate_trend (values : List ℝ) (window : ℕ) : List ℝ :=
  (List.range values.length).map fun i =>
    let start := i - window / 2
    let last := min (values.length - 1) (i + window / 2)
    if 2 ≤ last + 1 - start then
      polyfit_slope ((values.drop start).take (last + 1 - start))
    else 0

/-- `pandas.Timestamp.ceil` on whole seconds: smallest multiple of `m`
that is `≥ t`. -/
def ceilTo (t m : ℤ) : ℤ := -((-t) / m) * m

/-- `pandas.Timestamp.floor` on whole seconds: largest multiple of `m`
that is `≤ t`. -/
def floorTo (t m : ℤ) : ℤ := (t / m) * m

/-- `pd.date_range(start, end, freq)` on integer seconds: `start`,
`start + f`, ... up to the last value `≤ stop`; empty when
`start > stop`. -/
def date_range (start stop f : ℤ) : List ℤ :=
  if start ≤ stop ∧ 0 < f then
    (List.range (((stop - start) / f).toNat + 1)).map
      fun k : ℕ => start + (k : ℤ) * f
  else []

/-- The output frame-time grid built by `process_day` and
`process_day_enhanced`: `pd.date_range(time_min.ceil('5min'),
time_max.floor('5min'), freq=f'{int(frame_interval_minutes)}min')` — the
ceil/floor snap is hard-coded to 5 minutes while the step is the configured
interval.  Times in epoch seconds, the interval in whole minutes. -/
def frame_times (time_min time_max frame_interval_minutes : ℤ) : List ℤ :=
  date_range (ceilTo time_min 300) (floorTo time_max 300)
    (60 * frame_interval_minutes)

/-- The grid exactly as the claim states it: spanning
`[ceil(min_time, interval), floor(max_time, interval)]` at the configured
`frame_interval`. -/
def spec_frame_times (time_min time_max frame_interval_minutes : ℤ) : List ℤ :=
  date_range (ceilTo time_min (60 * frame_interval_minutes))
    (floorTo time_max (60 * frame_interval_minutes))
    (60 * frame_interval_minutes)

/-- Euclidean distance from the grid point `(lon, lat)` to the sensor from a
`((sensor_lon, sensor_lat), value)` triple, as computed inside
`idw_interpolation`. -/
noncomputable def sensor_dist (lon lat : ℝ) (q : (ℝ × ℝ) × ℝ) : ℝ :=
  Real.sqrt ((q.1.1 - lon) ^ 2 + (q.1.2 - lat) ^ 2)

/-- The body of the `idw_interpolation` cell loop over the zipped
`((lon, lat), value)` sensor triples: the value of the first distance
minimiser (`values[distances.argmin()]`) when `distances.min() < 1e-10`,
otherwise the `1/distance^power`-weighted average of the sensor values. -/
noncomputable def idw_points_at (pts : List ((ℝ × ℝ) × ℝ))
    (lon lat power : ℝ) : ℝ :=
  match pts with
  | [] => 0
  | p :: ps =>
    if sensor_dist lon lat (minimizeBy (sensor_dist lon lat) p ps) < 1e-10 then
      (minimizeBy (sensor_dist lon lat) p ps).2
    else
      ((p :: ps).map fun q => 1 / sensor_dist lon lat q ^ power * q.2).sum /
        ((p :: ps).map fun q => 1 / sensor_dist lon lat q ^ power).sum

/-- One grid cell of `idw_interpolation`, on the three parallel arrays. -/
noncomputable def idw_at (sensor_lons sensor_lats values : List ℝ)
    (lon lat power : ℝ) : ℝ :=
  idw_points_at ((sensor_lons.zip sensor_lats).zip values) lon lat power

/-- `np.linspace(a, b, n)`: `n` evenly spaced points from `a` to `b`. -/
noncomputable def linspace (a b : ℝ) (n : ℕ) : List ℝ :=
  (List.range n).map fun i : ℕ => a + (i : ℝ) * (b - a) / ((n : ℝ) - 1)

/-- `idw_interpolation` over the full meshgrid (row-major: latitude rows,
longitude columns, as `np.meshgrid(lons, lats)` lays the grids out). -/
noncomputable def idw_interpolation (sensor_lons sensor_lats values : List ℝ)
    (lon_axis lat_axis : List ℝ) (power : ℝ) : List (List ℝ) :=
  lat_axis.map fun lat => lon_axis.map fun lon =>
    idw_at sensor_lons sensor_lats values lon lat power

/-- `interpolate_pollution_field`: the scipy `RBFInterpolator` is external
code, so the RBF branch is modelled by an oracle field function; `rbf = none`
models the `try` block raising, in which case the code falls back to
`idw_interpolation`.  In the RBF branch the field is clipped to
`[0.5 * min(values), 1.5 * max(values)]`; the fallback result is returned
unclipped, exactly as in the source. -/
noncomputable def interpolate_pollution_field (sensor_lons sensor_lats : List ℝ)
    (pollution_values : List ℝ) (extent : ℝ × ℝ × ℝ × ℝ) (resolution : ℕ)
    (rbf : Option (ℝ → ℝ → ℝ)) : List (List ℝ) :=
  let lons := linspace extent.1 extent.2.1 resolution
  let lats := linspace extent.2.2.1 extent.2.2.2 resolution
  match rbf with
  | some f =>
    lats.map fun lat => lons.map fun lon =>
      np_clip (f lon lat) (listMin pollution_values * 0.5)
        (listMax pollution_values * 1.5)
  | none =>
    idw_interpolation sensor_lons sensor_lats pollution_values lons lats 2

/-- Sum of squared residuals of the plane `pollution = x.1*lon + x.2.1*lat +
x.2.2` over the sensors — the objective `np.linalg.lstsq` minimises for the
design matrix `[lons, lats, 1]` built in `calculate_pollution_gradient`. -/
noncomputable def residualSq (sensor_lons sensor_lats pollution_values : List ℝ)
    (x : ℝ × ℝ × ℝ) : ℝ :=
  (((sensor_lons.zip sensor_lats).zip pollution_values).map fun q =>
    (x.1 * q.1.1 + x.2.1 * q.1.2 + x.2.2 - q.2) ^ 2).sum

/-- The contract of `np.linalg.lstsq` (external library code): the returned
coefficients minimise the squared residual. -/
def IsLstsqSolution (sensor_lons sensor_lats pollution_values : List ℝ)
    (x : ℝ × ℝ × ℝ) : Prop :=
  ∀ z : ℝ × ℝ × ℝ, residualSq sensor_lons sensor_lats pollution_values x ≤
    residualSq sensor_lons sensor_lats pollution_values z

/-- Non-degenerate sensor geometry: the only affine function of `(lon, lat)`
vanishing at every sensor is zero, i.e. the design matrix has full column
rank, so the exact plane fit is unique. -/
def NondegenerateGeometry (sensor_lons sensor_lats : List ℝ) : Prop :=
  ∀ a b c : ℝ,
    (∀ p ∈ sensor_lons.zip sensor_lats, a * p.1 + b * p.2 + c = 0) →
    a = 0 ∧ b = 0 ∧ c = 0

/-- `calculate_pollution_gradient` from `enhanced_processing.py`, with the
`np.linalg.lstsq` output passed in as `coeffs` (constrained to the lstsq
contract in the theorems): `(direction, magnitude)` with the compass-bearing
direction `atan2(grad_lon, grad_lat)` normalised to `[0, 360)`, or `(0, 0)`
for fewer than 2 sensors or a near-zero gradient magnitude. -/
noncomputable def calculate_pollution_gradient
    (sensor_lons sensor_lats pollution_values : List ℝ)
    (coeffs : ℝ × ℝ × ℝ) : ℝ × ℝ :=
  if sensor_lons.length < 2 then (0, 0)
  else
    let magnitude := Real.sqrt (coeffs.1 ^ 2 + coeffs.2.1 ^ 2)
    if magnitude < 1e-10 then (0, 0)
    else (norm360 (degreesOf (atan2 coeffs.1 coeffs.2.1)), magnitude)

/-! ### Generic list lemmas used throughout -/

lemma minimizeBy_mem {α : Type} (f : α → ℝ) (a : α) (l : List α) :
    minimizeBy f a l ∈ a :: l := by
  induction l generalizing a with
  | nil => simp [minimizeBy]
  | cons x xs ih =>
    simp only [minimizeBy]
    rcases List.mem_cons.mp (ih (if f x < f a then x else a)) with h1 | h1
    · rw [h1]
      split <;> simp
    · exact List.mem_cons_of_mem _ (List.mem_cons_of_mem _ h1)

lemma minimizeBy_le {α : Type} (f : α → ℝ) (a : α) (l : List α) :
    ∀ x ∈ a :: l, f (minimizeBy f a l) ≤ f x := by
  induction l generalizing a with
  | nil =>
    intro x hx
    rcases List.mem_cons.mp hx with h1 | h1
    · rw [h1]; simp [minimizeBy]
    · simp at h1
  | cons y ys ih =>
    intro x hx
    simp only [minimizeBy]
    have hbase : f (if f y < f a then y else a) ≤ f a := by
      split
      · exact le_of_lt (by assumption)
      · exact le_rfl
    have hbasey : f (if f y < f a then y else a) ≤ f y := by
      split
      · exact le_rfl
      · exact le_of_not_lt (by assumption)
    have hhead := ih (if f y < f a then y else a) _ (List.mem_cons_self _ _)
    rcases List.mem_cons.mp hx with h1 | h1
    · rw [h1]; exact le_trans hhead hbase
    · rcases List.mem_cons.mp h1 with h2 | h2
      · rw [h2]; exact le_trans hhead hbasey
      · exact ih _ x (List.mem_cons_of_mem _ h2)

lemma foldl_min_le (a : ℝ) (l : List ℝ) :
    l.foldl min a ≤ a ∧ ∀ x ∈ l, l.foldl min a ≤ x := by
  induction l generalizing a with
  | nil => simp
  | cons y ys ih =>
    simp only [List.foldl_cons]
    refine ⟨le_trans (ih (min a y)).1 (min_le_left a y), ?_⟩
    intro x hx
    rcases List.mem_cons.mp hx with h1 | h1
    · rw [h1]; exact le_trans (ih (min a y)).1 (min_le_right a y)
    · exact (ih (min a y)).2 x h1

lemma foldl_max_le (a : ℝ) (l : List ℝ) :
    a ≤ l.foldl max a ∧ ∀ x ∈ l, x ≤ l.foldl max a := by
  induction l generalizing a with
  | nil => simp
  | cons y ys ih =>
    simp only [List.foldl_cons]
    refine ⟨le_trans (le_max_left a y) (ih (max a y)).1, ?_⟩
    intro x hx
    rcases List.mem_cons.mp hx with h1 | h1
    · rw [h1]; exact le_trans (le_max_right a y) (ih (max a y)).1
    · exact (ih (max a y)).2 x h1

lemma foldl_min_mem (a : ℝ) (l : List ℝ) : l.foldl min a ∈ a :: l := by
  induction l generalizing a with
  | nil => simp
  | cons y ys ih =>
    simp only [List.foldl_cons]
    rcases List.mem_cons.mp (ih (min a y)) with h1 | h1
    · rw [h1]
      rcases min_choice a y with h2 | h2 <;> rw [h2] <;> simp
    · exact List.mem_cons_of_mem _ (List.mem_cons_of_mem _ h1)

lemma foldl_max_mem (a : ℝ) (l : List ℝ) : l.foldl max a ∈ a :: l := by
  induction l generalizing a with
  | nil => simp
  | cons y ys ih =>
    simp only [List.foldl_cons]
    rcases List.mem_cons.mp (ih (max a y)) with h1 | h1
    · rw [h1]
      rcases max_choice a y with h2 | h2 <;> rw [h2] <;> simp
    · exact List.mem_cons_of_mem _ (List.mem_cons_of_mem _ h1)

lemma listMin_le_of_mem {l : List ℝ} {x : ℝ} (h : x ∈ l) : listMin l ≤ x := by
  cases l with
  | nil => simp at h
  | cons y ys =>
    rcases List.mem_cons.mp h with h1 | h1
    · subst h1; simpa [listMin] using (foldl_min_le x ys).1
    · exact (foldl_min_le y ys).2 x h1

lemma le_listMax_of_mem {l : List ℝ} {x : ℝ} (h : x ∈ l) : x ≤ listMax l := by
  cases l with
  | nil => simp at h
  | cons y ys =>
    rcases List.mem_cons.mp h with h1 | h1
    · subst h1; simpa [listMax] using (foldl_max_le x ys).1
    · exact (foldl_max_le y ys).2 x h1

lemma listMin_mem {l : List ℝ} (h : l ≠ []) : listMin l ∈ l := by
  cases l with
  | nil => exact absurd rfl h
  | cons y ys => exact foldl_min_mem y ys

lemma listMax_mem {l : List ℝ} (h : l ≠ []) : listMax l ∈ l := by
  cases l with
  | nil => exact absurd rfl h
  | cons y ys => exact foldl_max_mem y ys

lemma sum_filter_map {α : Type} (b : α → Bool) (f : α → ℝ) (l : List α) :
    ((l.filter b).map f).sum = (l.map fun a => if b a then f a else 0).sum := by
  induction l with
  | nil => simp
  | cons x xs ih => by_cases h : b x <;> simp [List.filter_cons, h, ih]

lemma wavg_bounds (l : List (ℝ × ℝ)) (hne : l ≠ []) (hw : ∀ p ∈ l, 0 < p.1)
    (lo hi : ℝ) (hv : ∀ p ∈ l, lo ≤ p.2 ∧ p.2 ≤ hi) :
    lo ≤ (l.map fun p => p.1 * p.2).sum / (l.map fun p => p.1).sum ∧
      (l.map fun p => p.1 * p.2).sum / (l.map fun p => p.1).sum ≤ hi := by
  have hW : 0 < (l.map fun p => p.1).sum := by
    refine List.sum_pos _ ?_ ?_
    · intro x hx
      rcases List.mem_map.mp hx with ⟨p, hp, rfl⟩
      exact hw p hp
    · simpa using hne
  constructor
  · rw [le_div_iff₀ hW]
    have h1 : (l.map fun p => p.1 * lo).sum = (l.map fun p => p.1).sum * lo :=
      List.sum_map_mul_right l (fun p => p.1) lo
    calc lo * (l.map fun p => p.1).sum = (l.map fun p => p.1 * lo).sum := by
          rw [h1]; ring
      _ ≤ (l.map fun p => p.1 * p.2).sum := by
          refine List.sum_le_sum ?_
          intro p hp
          exact mul_le_mul_of_nonneg_left (hv p hp).1 (le_of_lt (hw p hp))
  · rw [div_le_iff₀ hW]
    have h1 : (l.map fun p => p.1 * hi).sum = (l.map fun p => p.1).sum * hi :=
      List.sum_map_mul_right l (fun p => p.1) hi
    calc (l.map fun p => p.1 * p.2).sum ≤ (l.map fun p => p.1 * hi).sum := by
          refine List.sum_le_sum ?_
          intro p hp
          exact mul_le_mul_of_nonneg_left (hv p hp).2 (le_of_lt (hw p hp))
      _ = hi * (l.map fun p => p.1).sum := by rw [h1]; ring

/-! ### Branch analysis of `gaussian_kernel_smooth_at` -/

lemma zip_ne_nil (times values : List ℝ) (hne : times ≠ [])
    (hlen : times.length = values.length) : times.zip values ≠ [] := by
  intro h
  have h2 := congrArg List.length h
  rw [List.length_zip, ← hlen, min_self] at h2
  exact hne (List.length_eq_zero.mp h2)

lemma gks_at_of_mask_ne_nil (times values : List ℝ) (sigma_minutes t : ℝ)
    (h : ((times.zip values).filter
        fun p => |p.1 - t| < 3 * (sigma_minutes * 60)) ≠ []) :
    gaussian_kernel_smooth_at times values sigma_minutes t =
      (((times.zip values).filter fun p => |p.1 - t| < 3 * (sigma_minutes * 60)).map
          fun p => gweight (sigma_minutes * 60) t p.1 * p.2).sum /
        (((times.zip values).filter fun p => |p.1 - t| < 3 * (sigma_minutes * 60)).map
          fun p => gweight (sigma_minutes * 60) t p.1).sum := by
  simp only [gaussian_kernel_smooth_at]
  rw [if_neg h]

lemma gks_at_of_mask_nil (times values : List ℝ) (sigma_minutes t : ℝ)
    (hpne : times.zip values ≠ [])
    (h : ((times.zip values).filter
        fun p => |p.1 - t| < 3 * (sigma_minutes * 60)) = []) :
    ∃ q ∈ times.zip values,
      gaussian_kernel_smooth_at times values sigma_minutes t = q.2 ∧
      ∀ r ∈ times.zip values, |q.1 - t| ≤ |r.1 - t| := by
  obtain ⟨p, ps, hps⟩ := List.exists_cons_of_ne_nil hpne
  refine ⟨minimizeBy (fun q => |q.1 - t|) p ps, ?_, ?_, ?_⟩
  · rw [hps]; exact minimizeBy_mem _ p ps
  · simp only [gaussian_kernel_smooth_at]
    rw [if_pos h, hps]
  · intro r hr
    rw [hps] at hr
    exact minimizeBy_le (fun q => |q.1 - t|) p ps r hr

lemma hasMaskPoint_iff_filter_ne_nil (times values : List ℝ) (sigmaSeconds t : ℝ)
    (hlen : times.length = values.length) :
    HasMaskPoint times sigmaSeconds t ↔
      ((times.zip values).filter fun p => |p.1 - t| < 3 * sigmaSeconds) ≠ [] := by
  constructor
  · rintro ⟨ti, hti, hlt⟩ hnil
    have hmap : (times.zip values).map Prod.fst = times :=
      List.map_fst_zip times values (le_of_eq hlen)
    rw [← hmap] at hti
    obtain ⟨p, hp, hpi⟩ := List.mem_map.mp hti
    have hpf : p ∈ (times.zip values).filter
        fun p => |p.1 - t| < 3 * sigmaSeconds := by
      refine List.mem_filter.mpr ⟨hp, ?_⟩
      simp only [decide_eq_true_eq]
      rw [hpi, abs_sub_comm]
      exact hlt
    rw [hnil] at hpf
    simp at hpf
  · intro hne2
    obtain ⟨p, hp⟩ := List.exists_mem_of_ne_nil _ hne2
    have h2 := List.mem_filter.mp hp
    refine ⟨p.1, (List.of_mem_zip h2.1).1, ?_⟩
    have h3 := of_decide_eq_true h2.2
    rwa [abs_sub_comm]

lemma ite_sum_eq_filter_sum (l : List (ℝ × ℝ)) (sigmaSeconds t : ℝ)
    (f : ℝ × ℝ → ℝ) :
    (l.map fun p => if |t - p.1| < 3 * sigmaSeconds then f p else 0).sum =
      ((l.filter fun p => |p.1 - t| < 3 * sigmaSeconds).map f).sum := by
  induction l with
  | nil => simp
  | cons x xs ih =>
    have h2 : (|t - x.1| < 3 * sigmaSeconds) = (|x.1 - t| < 3 * sigmaSeconds) := by
      rw [abs_sub_comm]
    by_cases h : |x.1 - t| < 3 * sigmaSeconds <;>
      simp [List.filter_cons, h, h2, ih]

lemma specMaskedNum_eq (times values : List ℝ) (sigmaSeconds t : ℝ) :
    specMaskedNum times values sigmaSeconds t =
      (((times.zip values).filter fun p => |p.1 - t| < 3 * sigmaSeconds).map
        fun p => gweight sigmaSeconds t p.1 * p.2).sum := by
  rw [specMaskedNum, ite_sum_eq_filter_sum]

lemma specMaskedDen_eq (times values : List ℝ) (sigmaSeconds t : ℝ) :
    specMaskedDen times values sigmaSeconds t =
      (((times.zip values).filter fun p => |p.1 - t| < 3 * sigmaSeconds).map
        fun p => gweight sigmaSeconds t p.1).sum := by
  rw [specMaskedDen, ite_sum_eq_filter_sum]

lemma filter_weight_sum_pos (l : List (ℝ × ℝ)) (sigmaSeconds t : ℝ)
    (h : l ≠ []) : 0 < (l.map fun p => gweight sigmaSeconds t p.1).sum := by
  refine List.sum_pos _ ?_ ?_
  · intro x hx
    rcases List.mem_map.mp hx with ⟨p, _, rfl⟩
    exact Real.exp_pos _
  · simpa using h

/-- C1: for non-empty `(times, values)` of equal length and any target time
`t`, `gaussian_kernel_smooth` at `t` is the weight-normalised average of
`values` over exactly the points with `|t - times_i| < 3*sigma_seconds`
(Gaussian weights, `sigma_seconds = sigma_minutes*60`), points beyond the
cutoff contributing to neither numerator nor denominator; if no point
survives the cutoff, the result is the value at the single nearest time; the
denominator is positive in the masked branch, so the result is always a
well-defined real (never NaN). -/
theorem C1_gaussian_kernel_smooth (times values : List ℝ) (t sigma_minutes : ℝ)
    (hne : times ≠ []) (hlen : times.length = values.length) :
    (HasMaskPoint times (sigma_minutes * 60) t →
      0 < specMaskedDen times values (sigma_minutes * 60) t ∧
      gaussian_kernel_smooth_at times values sigma_minutes t =
        specMaskedNum times values (sigma_minutes * 60) t /
          specMaskedDen times values (sigma_minutes * 60) t) ∧
    (¬ HasMaskPoint times (sigma_minutes * 60) t →
      ∃ q ∈ times.zip values,
        gaussian_kernel_smooth_at times values sigma_minutes t = q.2 ∧
        ∀ r ∈ times.zip values, |q.1 - t| ≤ |r.1 - t|) := by
  constructor
  · intro hmask
    have hfil := (hasMaskPoint_iff_filter_ne_nil times values
      (sigma_minutes * 60) t hlen).mp hmask
    constructor
    · rw [specMaskedDen_eq]
      exact filter_weight_sum_pos _ _ _ hfil
    · rw [gks_at_of_mask_ne_nil times values sigma_minutes t hfil,
        specMaskedNum_eq, specMaskedDen_eq]
  · intro hmask
    have hfil : ((times.zip values).filter
        fun p => |p.1 - t| < 3 * (sigma_minutes * 60)) = [] := by
      by_contra hc
      exact hmask ((hasMaskPoint_iff_filter_ne_nil times values
        (sigma_minutes * 60) t hlen).mpr hc)
    exact gks_at_of_mask_nil times values sigma_minutes t
      (zip_ne_nil times values hne hlen) hfil

/-- C1 witness: a single observation at time `0` with value `7`, smoothed at
target time `0` with the default sigma: the cutoff mask is non-empty, the
denominator is positive and the smoothed value is the normalised average. -/
theorem C1_gaussian_kernel_smooth_witness :
    0 < specMaskedDen [0] [7] (10 * 60) 0 ∧
    gaussian_kernel_smooth_at [0] [7] 10 0 =
      specMaskedNum [0] [7] (10 * 60) 0 / specMaskedDen [0] [7] (10 * 60) 0 :=
  (C1_gaussian_kernel_smooth [0] [7] 0 10 (by simp) rfl).1
    (by refine ⟨0, by simp, by norm_num⟩)

/-- C10: the smoothed scalar value always lies within the range of the input
values — both the masked convex combination and the nearest-time fallback are
bounded by `[min values, max values]` — and a constant series is returned
unchanged at every target time. -/
theorem C10_smoothed_value_in_input_range (times values : List ℝ)
    (t sigma_minutes : ℝ) (hne : times ≠ [])
    (hlen : times.length = values.length) :
    (listMin values ≤ gaussian_kernel_smooth_at times values sigma_minutes t ∧
      gaussian_kernel_smooth_at times values sigma_minutes t ≤ listMax values) ∧
    ∀ c : ℝ, (∀ v ∈ values, v = c) →
      gaussian_kernel_smooth_at times values sigma_minutes t = c := by
  have hvne : values ≠ [] := by
    intro h
    rw [h] at hlen
    simp at hlen
    exact hne hlen
  have hbounds : listMin values ≤ gaussian_kernel_smooth_at times values sigma_minutes t ∧
      gaussian_kernel_smooth_at times values sigma_minutes t ≤ listMax values := by
    by_cases hm : ((times.zip values).filter
        fun p => |p.1 - t| < 3 * (sigma_minutes * 60)) = []
    · obtain ⟨q, hq, heq, _⟩ := gks_at_of_mask_nil times values sigma_minutes t
        (zip_ne_nil times values hne hlen) hm
      rw [heq]
      have hq2 : q.2 ∈ values := (List.of_mem_zip hq).2
      exact ⟨listMin_le_of_mem hq2, le_listMax_of_mem hq2⟩
    · rw [gks_at_of_mask_ne_nil times values sigma_minutes t hm]
      set masked := (times.zip values).filter
        fun p => |p.1 - t| < 3 * (sigma_minutes * 60) with hmdef
      have h := wavg_bounds
        (masked.map fun p => (gweight (sigma_minutes * 60) t p.1, p.2))
        (by simpa using hm)
        (by
          intro x hx
          rcases List.mem_map.mp hx with ⟨p, _, rfl⟩
          exact Real.exp_pos _)
        (listMin values) (listMax values)
        (by
          intro x hx
          rcases List.mem_map.mp hx with ⟨p, hp, rfl⟩
          have hp2 : p.2 ∈ values :=
            (List.of_mem_zip (List.mem_of_mem_filter hp)).2
          exact ⟨listMin_le_of_mem hp2, le_listMax_of_mem hp2⟩)
      simpa [List.map_map, Function.comp] using h
  refine ⟨hbounds, ?_⟩
  intro c hc
  have h1 := hc _ (listMin_mem hvne)
  have h2 := hc _ (listMax_mem hvne)
  have hb1 := hbounds.1
  have hb2 := hbounds.2
  rw [h1] at hb1
  rw [h2] at hb2
  linarith

/-- C10 witness: the constant series `[7, 7]` is returned unchanged. -/
theorem C10_smoothed_value_in_input_range_witness :
    gaussian_kernel_smooth_at [0, 60] [7, 7] 10 30 = 7 :=
  (C10_smoothed_value_in_input_range [0, 60] [7, 7] 30 10 (by simp) rfl).2 7
    (by intro v hv; simpa using hv)

/-! ### Circular resampler -/

lemma norm360_range (d : ℝ) (h1 : -180 < d) (h2 : d ≤ 180) :
    0 ≤ norm360 d ∧ norm360 d < 360 := by
  rw [norm360]
  split
  · constructor <;> linarith
  · rename_i h
    constructor
    · linarith [not_lt.mp h]
    · linarith

lemma degreesOf_atan2_range (y x : ℝ) :
    -180 < degreesOf (atan2 y x) ∧ degreesOf (atan2 y x) ≤ 180 := by
  have h1 : atan2 y x ≤ Real.pi := Complex.arg_le_pi _
  have h2 : -Real.pi < atan2 y x := Complex.neg_pi_lt_arg _
  have hpi : (0:ℝ) < Real.pi := Real.pi_pos
  constructor
  · rw [degreesOf, lt_div_iff₀ hpi]
    nlinarith
  · rw [degreesOf, div_le_iff₀ hpi]
    nlinarith

lemma circular_mean_of_ne_nil (directions weights : List ℝ)
    (h : directions ≠ []) :
    circular_mean directions weights =
      norm360 (degreesOf (atan2
        (((directions.zip weights).map fun p => p.2 * Real.sin (radiansOf p.1)).sum)
        (((directions.zip weights).map fun p => p.2 * Real.cos (radiansOf p.1)).sum))) := by
  simp only [circular_mean]
  rw [if_neg h]

lemma swd_at_of_mask_ne_nil (times directions : List ℝ) (sigma_minutes t : ℝ)
    (h : ((times.zip directions).filter
        fun p => |p.1 - t| < 3 * (sigma_minutes * 60)) ≠ []) :
    smooth_wind_direction_at times directions sigma_minutes t =
      circular_mean
        (((times.zip directions).filter
          fun p => |p.1 - t| < 3 * (sigma_minutes * 60)).map Prod.snd)
        (((times.zip directions).filter
          fun p => |p.1 - t| < 3 * (sigma_minutes * 60)).map
            fun p => gweight (sigma_minutes * 60) t p.1) := by
  simp only [smooth_wind_direction_at]
  rw [if_neg h]

lemma swd_at_of_mask_nil (times directions : List ℝ) (sigma_minutes t : ℝ)
    (hpne : times.zip directions ≠ [])
    (h : ((times.zip directions).filter
        fun p => |p.1 - t| < 3 * (sigma_minutes * 60)) = []) :
    ∃ q ∈ times.zip directions,
      smooth_wind_direction_at times directions sigma_minutes t = q.2 ∧
      ∀ r ∈ times.zip directions, |q.1 - t| ≤ |r.1 - t| := by
  obtain ⟨p, ps, hps⟩ := List.exists_cons_of_ne_nil hpne
  refine ⟨minimizeBy (fun q => |q.1 - t|) p ps, ?_, ?_, ?_⟩
  · rw [hps]; exact minimizeBy_mem _ p ps
  · simp only [smooth_wind_direction_at]
    rw [if_pos h, hps]
  · intro r hr
    rw [hps] at hr
    exact minimizeBy_le (fun q => |q.1 - t|) p ps r hr

/-- C2: for every target time with at least one point inside the `3*sigma`
cutoff, `smooth_wind_direction` returns the weighted circular mean of the
masked directions — `degrees(atan2(sum w*sin, sum w*cos))` normalised into
`[0, 360)` — with the same Gaussian weights and cutoff as the scalar
resampler, the same nearest-time fallback when no point survives, and the
circular mean of `{350°, 10°}` with equal weights is `0°`, not `180°`. -/
theorem C2_smooth_wind_direction_circular_mean (times directions : List ℝ)
    (t sigma_minutes : ℝ) (hne : times ≠ [])
    (hlen : times.length = directions.length) :
    (HasMaskPoint times (sigma_minutes * 60) t →
      smooth_wind_direction_at times directions sigma_minutes t =
        norm360 (degreesOf (atan2
          ((((times.zip directions).filter
              fun p => |p.1 - t| < 3 * (sigma_minutes * 60)).map
            fun p => gweight (sigma_minutes * 60) t p.1 * Real.sin (radiansOf p.2)).sum)
          ((((times.zip directions).filter
              fun p => |p.1 - t| < 3 * (sigma_minutes * 60)).map
            fun p => gweight (sigma_minutes * 60) t p.1 * Real.cos (radiansOf p.2)).sum))) ∧
      0 ≤ smooth_wind_direction_at times directions sigma_minutes t ∧
      smooth_wind_direction_at times directions sigma_minutes t < 360) ∧
    (¬ HasMaskPoint times (sigma_minutes * 60) t →
      ∃ q ∈ times.zip directions,
        smooth_wind_direction_at times directions sigma_minutes t = q.2 ∧
        ∀ r ∈ times.zip directions, |q.1 - t| ≤ |r.1 - t|) ∧
    circular_mean [350, 10] [1, 1] = 0 := by
  refine ⟨?_, ?_, ?_⟩
  · intro hmask
    have hfil := (hasMaskPoint_iff_filter_ne_nil times directions
      (sigma_minutes * 60) t hlen).mp hmask
    have heq : smooth_wind_direction_at times directions sigma_minutes t =
        norm360 (degreesOf (atan2
          ((((times.zip directions).filter
              fun p => |p.1 - t| < 3 * (sigma_minutes * 60)).map
            fun p => gweight (sigma_minutes * 60) t p.1 * Real.sin (radiansOf p.2)).sum)
          ((((times.zip directions).filter
              fun p => |p.1 - t| < 3 * (sigma_minutes * 60)).map
            fun p => gweight (sigma_minutes * 60) t p.1 * Real.cos (radiansOf p.2)).sum))) := by
      rw [swd_at_of_mask_ne_nil times directions sigma_minutes t hfil,
        circular_mean_of_ne_nil _ _ (by simpa using hfil), List.zip_map']
      simp only [List.map_map, Function.comp_def]
    refine ⟨heq, ?_⟩
    rw [heq]
    obtain ⟨hr1, hr2⟩ := degreesOf_atan2_range
      ((((times.zip directions).filter
          fun p => |p.1 - t| < 3 * (sigma_minutes * 60)).map
        fun p => gweight (sigma_minutes * 60) t p.1 * Real.sin (radiansOf p.2)).sum)
      ((((times.zip directions).filter
          fun p => |p.1 - t| < 3 * (sigma_minutes * 60)).map
        fun p => gweight (sigma_minutes * 60) t p.1 * Real.cos (radiansOf p.2)).sum)
    exact norm360_range _ hr1 hr2
  · intro hmask
    have hfil : ((times.zip directions).filter
        fun p => |p.1 - t| < 3 * (sigma_minutes * 60)) = [] := by
      by_contra hc
      exact hmask ((hasMaskPoint_iff_filter_ne_nil times directions
        (sigma_minutes * 60) t hlen).mpr hc)
    exact swd_at_of_mask_nil times directions sigma_minutes t
      (zip_ne_nil times directions hne hlen) hfil
  · have hpi : (0:ℝ) < Real.pi := Real.pi_pos
    rw [circular_mean_of_ne_nil _ _ (by simp)]
    have hz : ([350, 10] : List ℝ).zip ([1, 1] : List ℝ) = [(350, 1), (10, 1)] := rfl
    rw [hz]
    simp only [List.map_cons, List.map_nil, List.sum_cons, List.sum_nil]
    have hshift : (350:ℝ) * Real.pi / 180 = 2 * Real.pi - 10 * Real.pi / 180 := by
      ring
    have h350s : Real.sin (radiansOf 350) = -Real.sin (radiansOf 10) := by
      rw [radiansOf, radiansOf, hshift, Real.sin_sub, Real.sin_two_pi,
        Real.cos_two_pi]
      ring
    have h350c : Real.cos (radiansOf 350) = Real.cos (radiansOf 10) := by
      rw [radiansOf, radiansOf, hshift, Real.cos_sub, Real.sin_two_pi,
        Real.cos_two_pi]
      ring
    have hcos : 0 < Real.cos (radiansOf 10) := by
      rw [radiansOf]
      apply Real.cos_pos_of_mem_Ioo
      refine Set.mem_Ioo.mpr ⟨?_, ?_⟩
      · have h0 : (0:ℝ) < 10 * Real.pi / 180 := by positivity
        linarith
      · linarith
    rw [h350s, h350c]
    have hS : (1:ℝ) * -Real.sin (radiansOf 10) +
        (1 * Real.sin (radiansOf 10) + 0) = 0 := by ring
    have hC : (1:ℝ) * Real.cos (radiansOf 10) +
        (1 * Real.cos (radiansOf 10) + 0) = 2 * Real.cos (radiansOf 10) := by
      ring
    rw [hS, hC]
    have harg : atan2 0 (2 * Real.cos (radiansOf 10)) = 0 := by
      rw [atan2]
      have hco : (⟨2 * Real.cos (radiansOf 10), 0⟩ : ℂ) =
          ((2 * Real.cos (radiansOf 10) : ℝ) : ℂ) := rfl
      rw [hco]
      exact Complex.arg_ofReal_of_nonneg (by positivity)
    rw [harg, degreesOf]
    norm_num [norm360]

/-- C2 witness: the theorem applied to a concrete one-point series; its
unconditional conjunct yields the circular mean of `{350°, 10°}`. -/
theorem C2_smooth_wind_direction_circular_mean_witness :
    circular_mean [350, 10] [1, 1] = 0 :=
  (C2_smooth_wind_direction_circular_mean [0] [90] 0 10 (by simp) rfl).2.2

/-! ### Wind/pollution classifier -/

lemma awpr_of_not_calm (u v gd : ℝ) (h : ¬ (|u| < 0.01 ∧ |v| < 0.01)) :
    analyze_wind_pollution_relationship u v gd =
      (Real.cos (radiansOf (gd - norm360 (degreesOf (atan2 u v)))),
        if Real.cos (radiansOf (gd - norm360 (degreesOf (atan2 u v)))) > 0.5
          then "accumulating"
        else if Real.cos (radiansOf (gd - norm360 (degreesOf (atan2 u v)))) < -0.5
          then "dispersing"
        else "mixing") := by
  simp only [analyze_wind_pollution_relationship]
  rw [if_neg h]
  split_ifs <;> rfl

/-- C4: near-zero wind yields `(0, "calm")`; otherwise the alignment is
`cos(radians(gradient_bearing - wind_bearing))` with the wind bearing
`atan2(u, v)` in degrees normalised to `[0, 360)`, the label thresholds are
exactly `> 0.5` accumulating, `< -0.5` dispersing, `mixing` in between, and
gradient bearing equal / opposite / perpendicular to the wind bearing gives
alignment `1` accumulating, `-1` dispersing, `0` mixing respectively. -/
theorem C4_analyze_wind_pollution_relationship (u v gd : ℝ) :
    ((|u| < 0.01 ∧ |v| < 0.01) →
      analyze_wind_pollution_relationship u v gd = (0, "calm")) ∧
    (¬ (|u| < 0.01 ∧ |v| < 0.01) →
      (analyze_wind_pollution_relationship u v gd).1 =
          Real.cos (radiansOf (gd - norm360 (degreesOf (atan2 u v)))) ∧
      (((analyze_wind_pollution_relationship u v gd).2 = "accumulating" ↔
          0.5 < (analyze_wind_pollution_relationship u v gd).1) ∧
        ((analyze_wind_pollution_relationship u v gd).2 = "dispersing" ↔
          (analyze_wind_pollution_relationship u v gd).1 < -0.5) ∧
        ((analyze_wind_pollution_relationship u v gd).2 = "mixing" ↔
          (-0.5 ≤ (analyze_wind_pollution_relationship u v gd).1 ∧
            (analyze_wind_pollution_relationship u v gd).1 ≤ 0.5))) ∧
      (gd = norm360 (degreesOf (atan2 u v)) →
        analyze_wind_pollution_relationship u v gd = (1, "accumulating")) ∧
      (gd = norm360 (degreesOf (atan2 u v)) + 180 →
        analyze_wind_pollution_relationship u v gd = (-1, "dispersing")) ∧
      (gd = norm360 (degreesOf (atan2 u v)) + 90 →
        analyze_wind_pollution_relationship u v gd = (0, "mixing"))) := by
  constructor
  · intro h
    simp only [analyze_wind_pollution_relationship]
    rw [if_pos h]
  · intro h
    rw [awpr_of_not_calm u v gd h]
    set A := Real.cos (radiansOf (gd - norm360 (degreesOf (atan2 u v)))) with hA
    refine ⟨rfl, ⟨?_, ?_, ?_⟩, ?_, ?_, ?_⟩
    · by_cases h1 : A > 0.5
      · simp [h1]
      · by_cases h2 : A < -0.5 <;> simp [h1, h2]
    · by_cases h1 : A > 0.5
      · simp only [if_pos h1]
        constructor
        · intro hs
          exact absurd hs (by decide)
        · intro hlt
          linarith
      · by_cases h2 : A < -0.5
        · simp [h1, h2]
        · simp only [if_neg h1, if_neg h2]
          constructor
          · intro hs
            exact absurd hs (by decide)
          · intro hlt
            exact absurd hlt h2
    · by_cases h1 : A > 0.5
      · simp only [if_pos h1]
        constructor
        · intro hs
          exact absurd hs (by decide)
        · rintro ⟨_, hle⟩
          linarith
      · by_cases h2 : A < -0.5
        · simp only [if_neg h1, if_pos h2]
          constructor
          · intro hs
            exact absurd hs (by decide)
          · rintro ⟨hge, _⟩
            linarith
        · simp only [if_neg h1, if_neg h2]
          constructor
          · intro _
            exact ⟨le_of_not_lt h2, le_of_not_lt h1⟩
          · intro _
            trivial
    · intro hgd
      have hA1 : A = 1 := by
        rw [hA, hgd, sub_self]
        simp [radiansOf]
      have h1 : A > 0.5 := by rw [hA1]; norm_num
      rw [if_pos h1, hA1]
    · intro hgd
      have hA1 : A = -1 := by
        rw [hA, hgd,
          show norm360 (degreesOf (atan2 u v)) + 180 -
              norm360 (degreesOf (atan2 u v)) = (180:ℝ) from by ring,
          radiansOf, show (180:ℝ) * Real.pi / 180 = Real.pi from by ring,
          Real.cos_pi]
      have h1 : ¬ (A > 0.5) := by rw [hA1]; norm_num
      have h2 : A < -0.5 := by rw [hA1]; norm_num
      rw [if_neg h1, if_pos h2, hA1]
    · intro hgd
      have hA1 : A = 0 := by
        rw [hA, hgd,
          show norm360 (degreesOf (atan2 u v)) + 90 -
              norm360 (degreesOf (atan2 u v)) = (90:ℝ) from by ring,
          radiansOf, show (90:ℝ) * Real.pi / 180 = Real.pi / 2 from by ring,
          Real.cos_pi_div_two]
      have h1 : ¬ (A > 0.5) := by rw [hA1]; norm_num
      have h2 : ¬ (A < -0.5) := by rw [hA1]; norm_num
      rw [if_neg h1, if_neg h2, hA1]

/-- C4 witness: due-north wind `(u, v) = (0, 1)` with the gradient bearing
equal to the wind bearing yields alignment `1` and label `accumulating`. -/
theorem C4_analyze_wind_pollution_relationship_witness :
    analyze_wind_pollution_relationship 0 1 (norm360 (degreesOf (atan2 0 1))) =
      (1, "accumulating") :=
  (((C4_analyze_wind_pollution_relationship 0 1
      (norm360 (degreesOf (atan2 0 1)))).2 (by norm_num)).2.2.1) rfl

/-! ### Upwind/downwind scoring -/

lemma sum_eq_length_mul (l : List ℝ) (c : ℝ) (h : ∀ a ∈ l, a = c) :
    l.sum = l.length * c := by
  induction l with
  | nil => simp
  | cons x xs ih =>
    have hx := h x (List.mem_cons_self _ _)
    have hxs := ih fun a ha => h a (List.mem_cons_of_mem _ ha)
    simp [hx, hxs]
    ring

lemma maxAbs_eq (l : List ℝ) (h : l ≠ []) :
    max |listMax l| |listMin l| = listMax (l.map abs) := by
  apply le_antisymm
  · apply max_le
    · exact le_listMax_of_mem (List.mem_map_of_mem _ (listMax_mem h))
    · exact le_listMax_of_mem (List.mem_map_of_mem _ (listMin_mem h))
  · have hm : listMax (l.map abs) ∈ l.map abs := listMax_mem (by simpa using h)
    rcases List.mem_map.mp hm with ⟨x, hx, hax⟩
    rw [← hax]
    have h1 : x ≤ listMax l := le_listMax_of_mem hx
    have h2 : listMin l ≤ x := listMin_le_of_mem hx
    have h3 : listMax l ≤ |listMax l| := le_abs_self _
    have h4 : -|listMin l| ≤ listMin l := neg_abs_le _
    refine abs_le.mpr ⟨?_, ?_⟩
    · linarith [le_max_right |listMax l| |listMin l|]
    · linarith [le_max_left |listMax l| |listMin l|]

lemma dus_calm (lons lats : List ℝ) (u v : ℝ) (h : |u| < 0.01 ∧ |v| < 0.01) :
    determine_upwind_sensor lons lats u v = List.replicate lons.length 0 := by
  simp only [determine_upwind_sensor]
  rw [if_pos h]

lemma dus_spread (lons lats : List ℝ) (u v : ℝ)
    (h : ¬ (|u| < 0.01 ∧ |v| < 0.01))
    (hs : listMax (upwind_projections lons lats u v) -
        listMin (upwind_projections lons lats u v) > 1e-10) :
    determine_upwind_sensor lons lats u v =
      (upwind_projections lons lats u v).map fun p =>
        -p / max |listMax (upwind_projections lons lats u v)|
          |listMin (upwind_projections lons lats u v)| := by
  simp only [determine_upwind_sensor]
  rw [if_neg h, if_pos hs]

lemma dus_nospread (lons lats : List ℝ) (u v : ℝ)
    (h : ¬ (|u| < 0.01 ∧ |v| < 0.01))
    (hs : ¬ (listMax (upwind_projections lons lats u v) -
        listMin (upwind_projections lons lats u v) > 1e-10)) :
    determine_upwind_sensor lons lats u v = List.replicate lons.length 0 := by
  simp only [determine_upwind_sensor]
  rw [if_neg h, if_neg hs]

/-- C9: with non-negligible wind and positive projection spread each score is
the negated centroid-relative projection rescaled by the maximum absolute
projection and all scores lie in `[-1, 1]`; near-zero wind, near-zero spread,
all-coincident sensors and the single-sensor case all give all-zero scores. -/
theorem C9_determine_upwind_sensor (sensor_lons sensor_lats : List ℝ)
    (wind_u wind_v : ℝ) (hne : sensor_lons ≠ [])
    (hlen : sensor_lons.length = sensor_lats.length) :
    ((|wind_u| < 0.01 ∧ |wind_v| < 0.01) →
      determine_upwind_sensor sensor_lons sensor_lats wind_u wind_v =
        List.replicate sensor_lons.length 0) ∧
    (¬ (|wind_u| < 0.01 ∧ |wind_v| < 0.01) →
      (listMax (upwind_projections sensor_lons sensor_lats wind_u wind_v) -
          listMin (upwind_projections sensor_lons sensor_lats wind_u wind_v) >
          1e-10 →
        determine_upwind_sensor sensor_lons sensor_lats wind_u wind_v =
          (upwind_projections sensor_lons sensor_lats wind_u wind_v).map
            (fun p => -p / listMax
              ((upwind_projections sensor_lons sensor_lats wind_u wind_v).map
                abs)) ∧
        ∀ s ∈ determine_upwind_sensor sensor_lons sensor_lats wind_u wind_v,
          -1 ≤ s ∧ s ≤ 1) ∧
      (¬ (listMax (upwind_projections sensor_lons sensor_lats wind_u wind_v) -
          listMin (upwind_projections sensor_lons sensor_lats wind_u wind_v) >
          1e-10) →
        determine_upwind_sensor sensor_lons sensor_lats wind_u wind_v =
          List.replicate sensor_lons.length 0)) ∧
    (∀ x y : ℝ, (∀ p ∈ sensor_lons.zip sensor_lats, p = (x, y)) →
      determine_upwind_sensor sensor_lons sensor_lats wind_u wind_v =
        List.replicate sensor_lons.length 0) ∧
    (sensor_lons.length = 1 →
      determine_upwind_sensor sensor_lons sensor_lats wind_u wind_v = [0]) := by
  have hzip := zip_ne_nil sensor_lons sensor_lats hne hlen
  have hpne : upwind_projections sensor_lons sensor_lats wind_u wind_v ≠ [] := by
    intro hcon
    rw [upwind_projections] at hcon
    exact hzip (List.map_eq_nil_iff.mp hcon)
  have he : (0:ℝ) < 1e-10 := by norm_num
  refine ⟨fun h => dus_calm _ _ _ _ h, ?_, ?_, ?_⟩
  · intro h
    constructor
    · intro hspread
      have hM := maxAbs_eq _ hpne
      have hMpos : 0 < max
          |listMax (upwind_projections sensor_lons sensor_lats wind_u wind_v)|
          |listMin (upwind_projections sensor_lons sensor_lats wind_u wind_v)| := by
        have ha := le_abs_self
          (listMax (upwind_projections sensor_lons sensor_lats wind_u wind_v))
        have hb := neg_abs_le
          (listMin (upwind_projections sensor_lons sensor_lats wind_u wind_v))
        have hc := le_max_left
          |listMax (upwind_projections sensor_lons sensor_lats wind_u wind_v)|
          |listMin (upwind_projections sensor_lons sensor_lats wind_u wind_v)|
        have hd := le_max_right
          |listMax (upwind_projections sensor_lons sensor_lats wind_u wind_v)|
          |listMin (upwind_projections sensor_lons sensor_lats wind_u wind_v)|
        linarith
      constructor
      · rw [dus_spread _ _ _ _ h hspread, hM]
      · intro s hs
        rw [dus_spread _ _ _ _ h hspread] at hs
        rcases List.mem_map.mp hs with ⟨p, hp, rfl⟩
        have hple : |p| ≤ max
            |listMax (upwind_projections sensor_lons sensor_lats wind_u wind_v)|
            |listMin (upwind_projections sensor_lons sensor_lats wind_u wind_v)| := by
          rw [hM]
          exact le_listMax_of_mem (List.mem_map_of_mem _ hp)
        have habs : abs (-p / max
            (abs (listMax (upwind_projections sensor_lons sensor_lats wind_u wind_v)))
            (abs (listMin (upwind_projections sensor_lons sensor_lats wind_u wind_v)))) ≤ 1 := by
          rw [abs_div, abs_neg, abs_of_pos hMpos]
          exact div_le_one_of_le₀ hple (le_of_lt hMpos)
        exact abs_le.mp habs
    · intro hs
      exact dus_nospread _ _ _ _ h hs
  · intro x y hxy
    by_cases hcalm : |wind_u| < 0.01 ∧ |wind_v| < 0.01
    · exact dus_calm _ _ _ _ hcalm
    · apply dus_nospread _ _ _ _ hcalm
      have hn : (sensor_lons.length : ℝ) ≠ 0 := by
        have h0 : sensor_lons.length ≠ 0 := fun hx0 =>
          hne (List.length_eq_zero.mp hx0)
        exact_mod_cast h0
      have hm : (sensor_lats.length : ℝ) ≠ 0 := by
        rw [← hlen]
        exact hn
      have hlonx : ∀ a ∈ sensor_lons, a = x := by
        intro a ha
        have hmap : (sensor_lons.zip sensor_lats).map Prod.fst = sensor_lons :=
          List.map_fst_zip sensor_lons sensor_lats (le_of_eq hlen)
        rw [← hmap] at ha
        rcases List.mem_map.mp ha with ⟨p, hp, rfl⟩
        rw [hxy p hp]
      have hlaty : ∀ a ∈ sensor_lats, a = y := by
        intro a ha
        have hmap : (sensor_lons.zip sensor_lats).map Prod.snd = sensor_lats :=
          List.map_snd_zip sensor_lons sensor_lats (le_of_eq hlen.symm)
        rw [← hmap] at ha
        rcases List.mem_map.mp ha with ⟨p, hp, rfl⟩
        rw [hxy p hp]
      have hcl : sensor_lons.sum / sensor_lons.length = x := by
        rw [sum_eq_length_mul sensor_lons x hlonx]
        field_simp
      have hcla : sensor_lats.sum / sensor_lats.length = y := by
        rw [sum_eq_length_mul sensor_lats y hlaty]
        field_simp
      have hproj : ∀ q ∈ upwind_projections sensor_lons sensor_lats wind_u wind_v,
          q = 0 := by
        intro q hq
        rw [upwind_projections] at hq
        rcases List.mem_map.mp hq with ⟨p, hp, rfl⟩
        have hp1 : p.1 = x := by rw [hxy p hp]
        have hp2 : p.2 = y := by rw [hxy p hp]
        rw [hp1, hp2, hcl, hcla]
        ring
      have h1 : listMax (upwind_projections sensor_lons sensor_lats wind_u wind_v) = 0 :=
        hproj _ (listMax_mem hpne)
      have h2 : listMin (upwind_projections sensor_lons sensor_lats wind_u wind_v) = 0 :=
        hproj _ (listMin_mem hpne)
      rw [h1, h2]
      norm_num
  · intro hlen1
    by_cases hcalm : |wind_u| < 0.01 ∧ |wind_v| < 0.01
    · rw [dus_calm _ _ _ _ hcalm, hlen1]
      rfl
    · have hlat1 : sensor_lats.length = 1 := by rw [← hlen, hlen1]
      obtain ⟨a, ha⟩ := List.length_eq_one.mp hlen1
      obtain ⟨b, hb⟩ := List.length_eq_one.mp hlat1
      have hnos : ¬ (listMax (upwind_projections sensor_lons sensor_lats wind_u wind_v) -
          listMin (upwind_projections sensor_lons sensor_lats wind_u wind_v) >
          1e-10) := by
        rw [upwind_projections, ha, hb]
        simp only [List.zip_cons_cons, List.zip_nil_right, List.map_cons,
          List.map_nil, listMax, listMin, List.foldl_nil, sub_self, not_lt]
        exact le_of_lt he
      rw [dus_nospread _ _ _ _ hcalm hnos, hlen1]
      rfl

/-- C9 witness: near-zero wind with a single sensor yields the all-zero
score list. -/
theorem C9_determine_upwind_sensor_witness :
    determine_upwind_sensor [0] [0] 0 0 = List.replicate 1 0 :=
  (C9_determine_upwind_sensor [0] [0] 0 0 (by simp) rfl).1 (by norm_num)

/-! ### Trend estimator -/

/-- C6 counterexample: the series `[0, 1]` has, at index 0, a clipped window
`[0, 1]` with two points whose least-squares slope is 1, but
`calculate_trend` returns 0 there (and at index 1) because of its early
return for series shorter than 3 — so the claim fails as stated. -/
theorem C6_calculate_trend_counterexample :
    calculate_trend [0, 1] 5 = [0, 0] ∧
    spec_calculate_trend [0, 1] 5 = [1, 1] ∧
    calculate_trend [0, 1] 5 ≠ spec_calculate_trend [0, 1] 5 := by
  have h1 : calculate_trend [0, 1] 5 = [0, 0] := by
    norm_num [calculate_trend, List.replicate]
  have h2 : spec_calculate_trend [0, 1] 5 = [1, 1] := by
    norm_num [spec_calculate_trend, List.range_succ, polyfit_slope]
  refine ⟨h1, h2, ?_⟩
  rw [h1, h2]
  simp

/-- C6 amended: for series of length at least 3, every index gets the
least-squares slope over the clipped window `[i - w/2, i + w/2]` whenever it
holds at least 2 points and 0 otherwise; series shorter than 3 get all-zero
trends. -/
theorem C6_calculate_trend_amended (values : List ℝ) (window : ℕ) :
    (3 ≤ values.length →
      calculate_trend values window = spec_calculate_trend values window) ∧
    (values.length < 3 →
      calculate_trend values window = List.replicate values.length 0) := by
  constructor
  · intro h
    have hlt : ¬ (values.length < 3) := by omega
    simp only [calculate_trend, spec_calculate_trend]
    rw [if_neg hlt]
    apply congrArg (fun f => List.map f (List.range values.length))
    funext i
    have hmin : min values.length (i + window / 2 + 1) =
        min (values.length - 1) (i + window / 2) + 1 := by omega
    simp only [hmin]
  · intro h
    simp only [calculate_trend]
    rw [if_pos h]

/-- C6 amended witness: a concrete 3-point series, where the guard is
inactive and the spec-side computation agrees. -/
theorem C6_calculate_trend_amended_witness :
    calculate_trend [0, 1, 2] 5 = spec_calculate_trend [0, 1, 2] 5 :=
  (C6_calculate_trend_amended [0, 1, 2] 5).1 (by norm_num)

/-! ### Output time grid -/

lemma date_range_head (start stop f : ℤ) (h : start ≤ stop) (hf : 0 < f) :
    (date_range start stop f).head? = some start := by
  rw [date_range, if_pos ⟨h, hf⟩, List.range_succ_eq_map]
  simp

lemma date_range_mem (start stop f : ℤ) (x : ℤ)
    (hx : x ∈ date_range start stop f) : start ≤ x ∧ x ≤ stop := by
  rw [date_range] at hx
  split_ifs at hx with hc
  · obtain ⟨hss, hf⟩ := hc
    rcases List.mem_map.mp hx with ⟨k, hk, rfl⟩
    have hkr := List.mem_range.mp hk
    have hnn : 0 ≤ (stop - start) / f :=
      Int.ediv_nonneg (by omega) (le_of_lt hf)
    have hk2 : (k:ℤ) ≤ (stop - start) / f := by omega
    constructor
    · have hkf : 0 ≤ (k:ℤ) * f := by positivity
      linarith
    · have h1 : (k:ℤ) * f ≤ ((stop - start) / f) * f :=
        mul_le_mul_of_nonneg_right hk2 (le_of_lt hf)

      have h3 := Int.ediv_add_emod (stop - start) f
      have h4 := Int.emod_nonneg (stop - start) (ne_of_gt hf)
      have h2 : ((stop - start) / f) * f ≤ stop - start := by
        have h5 : ((stop - start) / f) * f = f * ((stop - start) / f) :=
          mul_comm _ _
        linarith
      linarith
  · simp at hx

lemma date_range_chain (start stop f : ℤ) :
    List.Chain' (fun a b => b = a + f) (date_range start stop f) := by
  rw [date_range]
  split
  · rw [List.chain'_map, List.chain'_range_succ]
    intro m _
    push_cast
    ring
  · exact List.chain'_nil

lemma date_range_chain_lt (start stop f : ℤ) (hf : 0 < f) :
    List.Chain' (· < ·) (date_range start stop f) := by
  rw [date_range]
  split
  · rw [List.chain'_map, List.chain'_range_succ]
    intro m _
    push_cast
    nlinarith
  · exact List.chain'_nil

lemma date_range_last_mem (start stop f : ℤ) (h : start ≤ stop) (hf : 0 < f)
    (hdvd : f ∣ stop - start) : stop ∈ date_range start stop f := by
  rw [date_range, if_pos ⟨h, hf⟩]
  refine List.mem_map.mpr ⟨((stop - start) / f).toNat,
    List.mem_range.mpr (Nat.lt_succ_self _), ?_⟩
  have hnn : 0 ≤ (stop - start) / f := Int.ediv_nonneg (by omega) (le_of_lt hf)
  rw [Int.toNat_of_nonneg hnn, Int.ediv_mul_cancel hdvd]
  omega

/-- C7 counterexample: with a 10-minute configured interval and data spanning
`[00:02, 01:00]` (epoch seconds 120 to 3600), the code snaps the endpoints to
5-minute marks (grid `300, 900, ..., 3300`), while the claimed grid spanning
`[ceil(min, interval), floor(max, interval)]` would be `600, 1200, ...,
3600`. -/
theorem C7_frame_times_counterexample :
    frame_times 120 3600 10 ≠ spec_frame_times 120 3600 10 ∧
    frame_times 120 3600 10 = [300, 900, 1500, 2100, 2700, 3300] ∧
    spec_frame_times 120 3600 10 = [600, 1200, 1800, 2400, 3000, 3600] := by
  decide

/-- C7 amended: the grid starts at `ceil(min_time, 5min)`, all its points lie
in `[ceil(min_time, 5min), floor(max_time, 5min)]`, it is strictly increasing
with fixed spacing `frame_interval`, it is empty when the snapped endpoints
cross, and for the default 5-minute interval it reaches
`floor(max_time, 5min)` exactly. -/
theorem C7_frame_times_amended (tmin tmax m : ℤ) (hm : 0 < m) :
    ((ceilTo tmin 300 ≤ floorTo tmax 300) →
      (frame_times tmin tmax m).head? = some (ceilTo tmin 300)) ∧
    (∀ x ∈ frame_times tmin tmax m,
      ceilTo tmin 300 ≤ x ∧ x ≤ floorTo tmax 300) ∧
    List.Chain' (fun a b => b = a + 60 * m) (frame_times tmin tmax m) ∧
    List.Chain' (· < ·) (frame_times tmin tmax m) ∧
    (m = 5 → ceilTo tmin 300 ≤ floorTo tmax 300 →
      floorTo tmax 300 ∈ frame_times tmin tmax m) ∧
    (¬ (ceilTo tmin 300 ≤ floorTo tmax 300) →
      frame_times tmin tmax m = []) := by
  have hf : 0 < 60 * m := by linarith
  refine ⟨?_, ?_, ?_, ?_, ?_, ?_⟩
  · intro h
    exact date_range_head _ _ _ h hf
  · intro x hx
    exact date_range_mem _ _ _ x hx
  · exact date_range_chain _ _ _
  · exact date_range_chain_lt _ _ _ hf
  · intro h5 hle
    apply date_range_last_mem _ _ _ hle hf
    subst h5
    have h300 : (60:ℤ) * 5 = 300 := by norm_num
    rw [h300]
    simp only [floorTo, ceilTo]
    exact dvd_sub (dvd_mul_left _ _) (dvd_mul_left _ _)
  · intro h
    rw [frame_times, date_range, if_neg fun hc => h hc.1]

/-- C7 amended witness: data spanning seconds 120 to 3600 with the default
5-minute interval — the grid runs from 300 to 3600. -/
theorem C7_frame_times_amended_witness :
    (frame_times 120 3600 5).head? = some (ceilTo 120 300) ∧
    floorTo 3600 300 ∈ frame_times 120 3600 5 :=
  ⟨(C7_frame_times_amended 120 3600 5 (by norm_num)).1 (by decide),
    (C7_frame_times_amended 120 3600 5 (by norm_num)).2.2.2.2.1 rfl (by decide)⟩

/-! ### Spatial field interpolation -/

lemma np_clip_mem (x lo hi : ℝ) (h : lo ≤ hi) :
    lo ≤ np_clip x lo hi ∧ np_clip x lo hi ≤ hi :=
  ⟨le_min (le_max_right x lo) h, min_le_right _ _⟩

lemma zip3_ne_nil (lons lats vals : List ℝ) (hne : lons ≠ [])
    (h1 : lons.length = lats.length) (h2 : lats.length = vals.length) :
    (lons.zip lats).zip vals ≠ [] := by
  intro h
  have hlen := congrArg List.length h
  rw [List.length_zip, List.length_zip, ← h1, ← h1.trans h2, min_self,
    min_self] at hlen
  exact hne (List.length_eq_zero.mp hlen)

lemma idw_at_of_near (lons lats vals : List ℝ) (lon lat power : ℝ)
    (hq : ∃ q ∈ (lons.zip lats).zip vals, sensor_dist lon lat q < 1e-10) :
    ∃ q ∈ (lons.zip lats).zip vals,
      sensor_dist lon lat q < 1e-10 ∧
      idw_at lons lats vals lon lat power = q.2 ∧
      ∀ r ∈ (lons.zip lats).zip vals,
        sensor_dist lon lat q ≤ sensor_dist lon lat r := by
  obtain ⟨q0, hq0, hq0d⟩ := hq
  have hpne : (lons.zip lats).zip vals ≠ [] := by
    intro h
    rw [h] at hq0
    simp at hq0
  obtain ⟨p, ps, hps⟩ := List.exists_cons_of_ne_nil hpne
  have hbmem : minimizeBy (sensor_dist lon lat) p ps ∈ (lons.zip lats).zip vals := by
    rw [hps]
    exact minimizeBy_mem _ _ _
  have hble : ∀ r ∈ (lons.zip lats).zip vals,
      sensor_dist lon lat (minimizeBy (sensor_dist lon lat) p ps) ≤
        sensor_dist lon lat r := by
    intro r hr
    rw [hps] at hr
    exact minimizeBy_le _ _ _ r hr
  have hbd : sensor_dist lon lat (minimizeBy (sensor_dist lon lat) p ps) < 1e-10 :=
    lt_of_le_of_lt (hble q0 hq0) hq0d
  refine ⟨minimizeBy (sensor_dist lon lat) p ps, hbmem, hbd, ?_, hble⟩
  simp only [idw_at]
  rw [hps]
  simp only [idw_points_at]
  rw [if_pos hbd]

lemma idw_at_single (l a v lon lat : ℝ) : idw_at [l] [a] [v] lon lat 2 = v := by
  simp only [idw_at, List.zip_cons_cons, List.zip_nil_right, idw_points_at,
    minimizeBy]
  by_cases h : sensor_dist lon lat ((l, a), v) < 1e-10
  · rw [if_pos h]
  · rw [if_neg h]
    have hd : (0:ℝ) < sensor_dist lon lat ((l, a), v) := by
      have h4 : (1e-10 : ℝ) ≤ sensor_dist lon lat ((l, a), v) := not_lt.mp h
      have h5 : (0:ℝ) < 1e-10 := by norm_num
      linarith
    have hw : (0:ℝ) < sensor_dist lon lat ((l, a), v) ^ (2:ℝ) :=
      Real.rpow_pos_of_pos hd 2
    simp only [List.map_cons, List.map_nil, List.sum_cons, List.sum_nil,
      add_zero]
    rw [mul_comm, mul_div_assoc, div_self (by positivity), mul_one]

lemma idw_at_bounds (lons lats vals : List ℝ) (lon lat power : ℝ)
    (hne : lons ≠ []) (h1 : lons.length = lats.length)
    (h2 : lats.length = vals.length) :
    listMin vals ≤ idw_at lons lats vals lon lat power ∧
      idw_at lons lats vals lon lat power ≤ listMax vals := by
  have hpne := zip3_ne_nil lons lats vals hne h1 h2
  obtain ⟨p, ps, hps⟩ := List.exists_cons_of_ne_nil hpne
  have hmem_vals : ∀ q ∈ (lons.zip lats).zip vals, q.2 ∈ vals :=
    fun q hq => (List.of_mem_zip hq).2
  simp only [idw_at]
  rw [hps]
  simp only [idw_points_at]
  by_cases hbd : sensor_dist lon lat (minimizeBy (sensor_dist lon lat) p ps) <
      1e-10
  · rw [if_pos hbd]
    have hb : minimizeBy (sensor_dist lon lat) p ps ∈ (lons.zip lats).zip vals := by
      rw [hps]
      exact minimizeBy_mem _ _ _
    have hv := hmem_vals _ hb
    exact ⟨listMin_le_of_mem hv, le_listMax_of_mem hv⟩
  · rw [if_neg hbd]
    have hminle := minimizeBy_le (sensor_dist lon lat) p ps
    have hwpos : ∀ r ∈ p :: ps, 0 < 1 / sensor_dist lon lat r ^ power := by
      intro r hr
      have h3 := hminle r hr
      have h4 : (1e-10 : ℝ) ≤ sensor_dist lon lat r :=
        le_trans (not_lt.mp hbd) h3
      have h5 : (0:ℝ) < sensor_dist lon lat r := by
        have : (0:ℝ) < 1e-10 := by norm_num
        linarith
      have h6 : 0 < sensor_dist lon lat r ^ power := Real.rpow_pos_of_pos h5 _
      exact div_pos one_pos h6
    have h := wavg_bounds
      ((p :: ps).map fun q => (1 / sensor_dist lon lat q ^ power, q.2))
      (by simp)
      (by
        intro x hx
        rcases List.mem_map.mp hx with ⟨r, hr, rfl⟩
        exact hwpos r hr)
      (listMin vals) (listMax vals)
      (by
        intro x hx
        rcases List.mem_map.mp hx with ⟨r, hr, rfl⟩
        have hv : r.2 ∈ vals := hmem_vals r (by rw [hps]; exact hr)
        exact ⟨listMin_le_of_mem hv, le_listMax_of_mem hv⟩)
    simpa [List.map_map, Function.comp] using h

/-- C8: a failed RBF fit (`rbf = none`) makes `interpolate_pollution_field`
return the inverse-distance-weighting (power 2) field instead of raising; a
grid cell within `1e-10` of some sensor receives the exact value of its
nearest sensor, and with a single sensor every cell receives that sensor's
value. -/
theorem C8_interpolation_fallback :
    (∀ (lons lats vals : List ℝ) (extent : ℝ × ℝ × ℝ × ℝ) (res : ℕ),
      interpolate_pollution_field lons lats vals extent res none =
        idw_interpolation lons lats vals
          (linspace extent.1 extent.2.1 res)
          (linspace extent.2.2.1 extent.2.2.2 res) 2) ∧
    (∀ (lons lats vals : List ℝ) (lon lat power : ℝ),
      (∃ q ∈ (lons.zip lats).zip vals, sensor_dist lon lat q < 1e-10) →
      ∃ q ∈ (lons.zip lats).zip vals,
        sensor_dist lon lat q < 1e-10 ∧
        idw_at lons lats vals lon lat power = q.2 ∧
        ∀ r ∈ (lons.zip lats).zip vals,
          sensor_dist lon lat q ≤ sensor_dist lon lat r) ∧
    (∀ l a v lon lat : ℝ, idw_at [l] [a] [v] lon lat 2 = v) := by
  refine ⟨?_, ?_, ?_⟩
  · intro lons lats vals extent res
    rfl
  · intro lons lats vals lon lat power hq
    exact idw_at_of_near lons lats vals lon lat power hq
  · intro l a v lon lat
    exact idw_at_single l a v lon lat

/-- C8 witness: a lone sensor at the origin with value 5 — the origin grid
cell is within `1e-10` of it and receives exactly 5. -/
theorem C8_interpolation_fallback_witness :
    ∃ q ∈ ([(0:ℝ)].zip [(0:ℝ)]).zip [(5:ℝ)],
      sensor_dist 0 0 q < 1e-10 ∧
      idw_at [0] [0] [5] 0 0 2 = q.2 ∧
      ∀ r ∈ ([(0:ℝ)].zip [(0:ℝ)]).zip [(5:ℝ)],
        sensor_dist 0 0 q ≤ sensor_dist 0 0 r :=
  C8_interpolation_fallback.2.1 [0] [0] [5] 0 0 2
    ⟨((0, 0), 5), by simp, by norm_num [sensor_dist]⟩

/-- C3 counterexample: a single sensor with the negative value `-1` routes to
the IDW fallback, whose (unclipped) field is `-1` everywhere, while the
claimed band `[0.5*min, 1.5*max] = [-0.5, -1.5]` does not contain `-1` — the
claim fails for negative sensor values. -/
theorem C3_field_band_counterexample :
    interpolate_pollution_field [0] [0] [-1] (0, 1, 0, 1) 1 none = [[-1]] ∧
    ¬ (listMin [-1] * 0.5 ≤ -1 ∧ (-1:ℝ) ≤ listMax [-1] * 1.5) := by
  constructor
  · have hls : ∀ b : ℝ, linspace 0 b 1 = [0] := by
      intro b
      norm_num [linspace, List.range_succ]
    have hidw : idw_at [0] [0] [-1] 0 0 2 = -1 := by
      have h0 : sensor_dist 0 0 (((0:ℝ), (0:ℝ)), (-1:ℝ)) = 0 := by
        norm_num [sensor_dist]
      simp only [idw_at, List.zip_cons_cons, List.zip_nil_right,
        idw_points_at, minimizeBy]
      rw [if_pos (by rw [h0]; norm_num)]
    simp only [interpolate_pollution_field, idw_interpolation]
    simp only [hls]
    simp [hidw]
  · norm_num [listMin, listMax]

/-- C3 amended: for non-empty sensors with matching coordinate/value lengths
and non-negative values, every cell of the returned field lies in
`[0.5*min(values), 1.5*max(values)]` in both the (clipped) RBF branch and
the IDW fallback branch. -/
theorem C3_field_band_amended (lons lats vals : List ℝ)
    (extent : ℝ × ℝ × ℝ × ℝ) (res : ℕ) (rbf : Option (ℝ → ℝ → ℝ))
    (hne : lons ≠ []) (h1 : lons.length = lats.length)
    (h2 : lats.length = vals.length) (hnn : 0 ≤ listMin vals) :
    ∀ row ∈ interpolate_pollution_field lons lats vals extent res rbf,
      ∀ x ∈ row, listMin vals * 0.5 ≤ x ∧ x ≤ listMax vals * 1.5 := by
  have hvne : vals ≠ [] := by
    have h3 : lons.length = vals.length := h1.trans h2
    intro h
    rw [h] at h3
    simp at h3
    exact hne h3
  have hmM : listMin vals ≤ listMax vals := le_listMax_of_mem (listMin_mem hvne)
  have hband : listMin vals * 0.5 ≤ listMax vals * 1.5 := by linarith
  intro row hrow x hx
  cases rbf with
  | some f =>
    simp only [interpolate_pollution_field] at hrow
    rcases List.mem_map.mp hrow with ⟨lat, _, rfl⟩
    rcases List.mem_map.mp hx with ⟨lon, _, rfl⟩
    exact np_clip_mem _ _ _ hband
  | none =>
    simp only [interpolate_pollution_field, idw_interpolation] at hrow
    rcases List.mem_map.mp hrow with ⟨lat, _, rfl⟩
    rcases List.mem_map.mp hx with ⟨lon, _, rfl⟩
    obtain ⟨hb1, hb2⟩ := idw_at_bounds lons lats vals lon lat 2 hne h1 h2
    constructor <;> linarith

/-- C3 amended witness: one sensor with the non-negative value 2 — the single
IDW cell value 2 lies within `[1, 3]`. -/
theorem C3_field_band_amended_witness :
    listMin [2] * 0.5 ≤ idw_at [0] [0] [2] 0 0 2 ∧
      idw_at [0] [0] [2] 0 0 2 ≤ listMax [2] * 1.5 := by
  have hls : ∀ b : ℝ, linspace 0 b 1 = [0] := by
    intro b
    norm_num [linspace, List.range_succ]
  have hmem : [idw_at [0] [0] [2] 0 0 2] ∈
      interpolate_pollution_field [0] [0] [2] (0, 1, 0, 1) 1 none := by
    simp only [interpolate_pollution_field, idw_interpolation]
    simp only [hls]
    simp
  exact C3_field_band_amended [0] [0] [2] (0, 1, 0, 1) 1 none (by simp) rfl rfl
    (by norm_num [listMin]) [idw_at [0] [0] [2] 0 0 2] hmem
    (idw_at [0] [0] [2] 0 0 2) (List.mem_singleton.mpr rfl)

/-! ### Gradient estimator -/

lemma all_zero_of_sum_eq_zero (l : List ℝ) (h0 : ∀ x ∈ l, 0 ≤ x)
    (hs : l.sum = 0) : ∀ x ∈ l, x = 0 := by
  induction l with
  | nil => simp
  | cons y ys ih =>
    have hy : 0 ≤ y := h0 y (List.mem_cons_self _ _)
    have hys : 0 ≤ ys.sum :=
      List.sum_nonneg fun x hx => h0 x (List.mem_cons_of_mem _ hx)
    rw [List.sum_cons] at hs
    have hy0 : y = 0 := by linarith
    have hsum0 : ys.sum = 0 := by linarith
    intro x hx
    rcases List.mem_cons.mp hx with h | h
    · rw [h]; exact hy0
    · exact ih (fun z hz => h0 z (List.mem_cons_of_mem _ hz)) hsum0 x h

/-- C5: for sensor values generated by the exact plane
`pollution = a*lon + b*lat + c`, with at least 2 sensors, non-degenerate
geometry and a least-squares solution as `np.linalg.lstsq` returns, the fit
recovers `(a, b, c)` exactly and the function returns the compass bearing
`atan2(a, b)` in degrees normalised to `[0, 360)` together with the magnitude
`sqrt(a^2 + b^2)`; with fewer than 2 sensors, or a gradient magnitude below
`1e-10`, it returns `(0, 0)`. -/
theorem C5_calculate_pollution_gradient
    (sensor_lons sensor_lats pollution_values : List ℝ)
    (coeffs : ℝ × ℝ × ℝ) (a b c : ℝ)
    (h1 : sensor_lons.length = sensor_lats.length)
    (h2 : sensor_lats.length = pollution_values.length)
    (hn : 2 ≤ sensor_lons.length)
    (hlin : ∀ q ∈ (sensor_lons.zip sensor_lats).zip pollution_values,
      q.2 = a * q.1.1 + b * q.1.2 + c)
    (hgeom : NondegenerateGeometry sensor_lons sensor_lats)
    (hlsq : IsLstsqSolution sensor_lons sensor_lats pollution_values coeffs)
    (hmag : 1e-10 ≤ Real.sqrt (a ^ 2 + b ^ 2)) :
    coeffs = (a, b, c) ∧
    calculate_pollution_gradient sensor_lons sensor_lats pollution_values
        coeffs =
      (norm360 (degreesOf (atan2 a b)), Real.sqrt (a ^ 2 + b ^ 2)) ∧
    (∀ (lons2 lats2 vals2 : List ℝ) (coeffs2 : ℝ × ℝ × ℝ),
      lons2.length < 2 →
      calculate_pollution_gradient lons2 lats2 vals2 coeffs2 = (0, 0)) ∧
    (∀ (lons2 lats2 vals2 : List ℝ) (coeffs2 : ℝ × ℝ × ℝ),
      Real.sqrt (coeffs2.1 ^ 2 + coeffs2.2.1 ^ 2) < 1e-10 →
      calculate_pollution_gradient lons2 lats2 vals2 coeffs2 = (0, 0)) := by
  have hres0 : residualSq sensor_lons sensor_lats pollution_values (a, b, c) = 0 := by
    apply List.sum_eq_zero
    intro x hx
    rcases List.mem_map.mp hx with ⟨q, hq, rfl⟩
    rw [hlin q hq]
    ring
  have hge : 0 ≤ residualSq sensor_lons sensor_lats pollution_values coeffs := by
    apply List.sum_nonneg
    intro x hx
    rcases List.mem_map.mp hx with ⟨q, _, rfl⟩
    exact sq_nonneg _
  have hle := hlsq (a, b, c)
  have hres : residualSq sensor_lons sensor_lats pollution_values coeffs = 0 := by
    rw [hres0] at hle
    linarith
  have hallz : ∀ q ∈ (sensor_lons.zip sensor_lats).zip pollution_values,
      coeffs.1 * q.1.1 + coeffs.2.1 * q.1.2 + coeffs.2.2 - q.2 = 0 := by
    intro q hq
    have hmem : (coeffs.1 * q.1.1 + coeffs.2.1 * q.1.2 + coeffs.2.2 - q.2) ^ 2 ∈
        ((sensor_lons.zip sensor_lats).zip pollution_values).map fun r =>
          (coeffs.1 * r.1.1 + coeffs.2.1 * r.1.2 + coeffs.2.2 - r.2) ^ 2 :=
      List.mem_map_of_mem _ hq
    have h0 : (coeffs.1 * q.1.1 + coeffs.2.1 * q.1.2 + coeffs.2.2 - q.2) ^ 2 = 0 :=
      all_zero_of_sum_eq_zero _
        (by
          intro x hx
          rcases List.mem_map.mp hx with ⟨r, _, rfl⟩
          exact sq_nonneg _)
        hres _ hmem
    exact pow_eq_zero_iff (by norm_num) |>.mp h0
  have hker : ∀ p ∈ sensor_lons.zip sensor_lats,
      (coeffs.1 - a) * p.1 + (coeffs.2.1 - b) * p.2 + (coeffs.2.2 - c) = 0 := by
    intro p hp
    have hmap : ((sensor_lons.zip sensor_lats).zip pollution_values).map
        Prod.fst = sensor_lons.zip sensor_lats := by
      apply List.map_fst_zip
      have hlz : (sensor_lons.zip sensor_lats).length = pollution_values.length := by
        rw [List.length_zip, ← h1, min_self, h1, h2]
      exact le_of_eq hlz
    rw [← hmap] at hp
    rcases List.mem_map.mp hp with ⟨q, hq, rfl⟩
    have hz := hallz q hq
    have hl := hlin q hq
    linear_combination hz + hl
  obtain ⟨ha, hb, hc⟩ :=
    hgeom (coeffs.1 - a) (coeffs.2.1 - b) (coeffs.2.2 - c) hker
  have e1 : coeffs.1 = a := by linarith
  have e2 : coeffs.2.1 = b := by linarith
  have e3 : coeffs.2.2 = c := by linarith
  have hco : coeffs = (a, b, c) :=
    calc coeffs = (coeffs.1, coeffs.2.1, coeffs.2.2) := rfl
    _ = (a, b, c) := by rw [e1, e2, e3]
  refine ⟨hco, ?_, ?_, ?_⟩
  · simp only [calculate_pollution_gradient]
    rw [if_neg (by omega), e1, e2, if_neg (not_lt.mpr hmag)]
  · intro lons2 lats2 vals2 coeffs2 hl2
    simp only [calculate_pollution_gradient]
    rw [if_pos hl2]
  · intro lons2 lats2 vals2 coeffs2 hm2
    simp only [calculate_pollution_gradient]
    by_cases h : lons2.length < 2
    · rw [if_pos h]
    · rw [if_neg h, if_pos hm2]

/-- C5 witness: three sensors at `(0,0)`, `(1,0)`, `(0,1)` with values from
the exact plane `pollution = lon` (so `a = 1`, `b = 0`, `c = 0`): the
recovered bearing is due east (90°) with magnitude 1. -/
theorem C5_calculate_pollution_gradient_witness :
    calculate_pollution_gradient [0, 1, 0] [0, 0, 1] [0, 1, 0] (1, 0, 0) =
      (90, 1) := by
  have h := (C5_calculate_pollution_gradient [0, 1, 0] [0, 0, 1] [0, 1, 0]
    (1, 0, 0) 1 0 0 rfl rfl (by norm_num)
    (by
      intro q hq
      fin_cases hq <;> norm_num)
    (by
      intro x y z h
      have e1 := h (0, 0) (by norm_num)
      have e2 := h (1, 0) (by norm_num)
      have e3 := h (0, 1) (by norm_num)
      norm_num at e1 e2 e3
      refine ⟨by linarith, by linarith, e1⟩)
    (by
      intro z
      have hz : residualSq [0, 1, 0] [0, 0, 1] [0, 1, 0] (1, 0, 0) = 0 := by
        norm_num [residualSq]
      rw [hz]
      apply List.sum_nonneg
      intro x hx
      rcases List.mem_map.mp hx with ⟨r, _, rfl⟩
      exact sq_nonneg _)
    (by
      rw [show ((1:ℝ) ^ 2 + 0 ^ 2) = 1 from by norm_num, Real.sqrt_one]
      norm_num)).2.1
  rw [h]
  have harg : atan2 1 0 = Real.pi / 2 := Complex.arg_I
  have hdeg : degreesOf (Real.pi / 2) = 90 := by
    rw [degreesOf, div_eq_iff Real.pi_ne_zero]
    ring
  have hsq : Real.sqrt ((1:ℝ) ^ 2 + 0 ^ 2) = 1 := by
    rw [show ((1:ℝ) ^ 2 + 0 ^ 2) = 1 from by norm_num, Real.sqrt_one]
  rw [harg, hdeg, hsq, norm360]
  norm_num

end DJS
